import Mathlib

/-!
Verification of the duplicate-routine detector of the `locus` repository
(`src/locus/similarity/`): a shallow embedding in Lean 4 of the normalizer
(`normalize.py`), the canonicalizer (`ast_canonical.py`), the unit extractor
(`extractor.py`), the hash-grouping strategies (`strategies.py`) and the
runner (`search.py`), together with theorems settling the stated claims.

External collaborators (the CPython `ast` parser, `hashlib.sha256`) are not
part of the repository; they enter the embedding as explicit parameters or
as documented injective encodings.
-/

set_option autoImplicit false

namespace Locus

/-! ## Python string primitives

`normalize.py` uses `str.strip()` and `re.sub(r"\s+", " ", s)`.  Whitespace
is modelled by the ASCII whitespace class `[ \t\n\r\x0b\x0c]` that both
`\s` and `str.strip` recognise on the ASCII range.
-/

def pyIsSpace (c : Char) : Bool :=
  c = ' ' || c = '\t' || c = '\n' || c = '\r' || c = '\x0b' || c = '\x0c'

/-- Python `str.strip()`, left half: drop leading whitespace. -/
def pyStripLeft (s : List Char) : List Char := s.dropWhile pyIsSpace

/-- Python `str.strip()`, right half: drop trailing whitespace. -/
def pyStripRight (s : List Char) : List Char :=
  (s.reverse.dropWhile pyIsSpace).reverse

/-- Python `str.strip()`: drop leading and trailing whitespace. -/
def pyStrip (s : List Char) : List Char := pyStripRight (pyStripLeft s)

/-- Regex substitution `re.sub(r"\s+", " ", s)`: replace every maximal run
of whitespace by a single space.  The boolean state records whether the
current character continues a run whose space has already been emitted. -/
def wsCollapse : Bool → List Char → List Char
  | _, [] => []
  | inRun, c :: cs =>
    if pyIsSpace c then
      if inRun then wsCollapse true cs else ' ' :: wsCollapse true cs
    else c :: wsCollapse false cs

/-- `normalize_text` from `locus/similarity/normalize.py`:
`s = source.strip(); s = _ws_re.sub(" ", s); return s`. -/
def normalize_text (source : String) : String :=
  ⟨wsCollapse false (pyStrip source.data)⟩

/-- Python `str.endswith(suffix)`. -/
def pyEndsWith (s suffix : String) : Bool :=
  suffix.data.isSuffixOf s.data

/-- Python `str.lower()` on the ASCII range. -/
def pyLower (s : String) : String := ⟨s.data.map Char.toLower⟩

/-! ### Whitespace-token decomposition

`wsTokens` splits a string into its maximal non-whitespace runs.  Two
sources "differing only in indentation, blank lines, or spacing" are
formalised as having equal `wsTokens` decompositions. -/

/-- Accumulator-based splitter: `cur` holds the reversed current token. -/
def wsTokensAux (cur : List Char) : List Char → List (List Char)
  | [] => if cur = [] then [] else [cur.reverse]
  | c :: cs =>
    if pyIsSpace c then
      if cur = [] then wsTokensAux [] cs else cur.reverse :: wsTokensAux [] cs
    else wsTokensAux (c :: cur) cs

/-- Maximal non-whitespace runs of a string, in order. -/
def wsTokens (l : List Char) : List (List Char) := wsTokensAux [] l

/-- Interleave a single space between tokens. -/
def joinTokens : List (List Char) → List Char
  | [] => []
  | [t] => t
  | t :: ts => t ++ ' ' :: joinTokens ts

/-! ### Output-shape predicates for `normalize_text` -/

def headNonWsB : List Char → Bool
  | [] => true
  | c :: _ => !pyIsSpace c

def lastNonWsB (l : List Char) : Bool :=
  match l.getLast? with
  | none => true
  | some c => !pyIsSpace c

/-- No two adjacent characters are both whitespace. -/
def adjacentOk : List Char → Bool
  | a :: b :: rest => (!(pyIsSpace a && pyIsSpace b)) && adjacentOk (b :: rest)
  | _ => true

/-- Every whitespace character is a plain space. -/
def wsCharsAreSpace (l : List Char) : Bool :=
  l.all (fun c => !pyIsSpace c || c = ' ')

def noLeadingWs (s : String) : Bool := headNonWsB s.data
def noTrailingWs (s : String) : Bool := lastNonWsB s.data
def noAdjacentWs (s : String) : Bool := adjacentOk s.data

/-! ## Result types (`locus/similarity/types.py`)

Scores are `float` in Python; the engine only ever stores the literal
`1.0` and never computes with scores, so they are modelled as exact
rationals. -/

structure CodeUnit where
  id : Nat
  file : String
  rel_path : String
  qualname : String
  span : Nat × Nat
  source : String
deriving DecidableEq, Repr

structure Match where
  a_id : Nat
  b_id : Nat
  score : ℚ
  strategy : String
  evidence : Option String := none
deriving DecidableEq, Repr

structure Cluster where
  id : Nat
  member_ids : List Nat := []
  strategy : String := "exact"
  score_min : ℚ := 1
  score_max : ℚ := 1
deriving DecidableEq, Repr

/-- `SimilarityResult.meta` is a free-form `Dict[str, Any]`; the engine only
ever stores the `"strategy"` entry, so `meta` is modelled as an ordered
string-to-string association list. -/
structure SimilarityResult where
  units : List CodeUnit
  clusters : List Cluster
  «matches» : List Match
  «meta» : List (String × String) := []
deriving DecidableEq, Repr

/-! ## Hash-grouping core (`locus/similarity/strategies.py`)

`_HashSimilarityStrategy.map` is a `defaultdict(list)`: an
insertion-ordered map from key to the list of unit ids appended under that
key.  It is modelled as an association list in key-first-insertion order. -/

abbrev KeyMap := List (String × List Nat)

/-- `self.map[key].append(i)` on a `defaultdict(list)`: append `i` to the
entry of `key`, creating the entry at the end on first insertion. -/
def mapAppend : KeyMap → String → Nat → KeyMap
  | [], k, i => [(k, [i])]
  | (k0, ids) :: rest, k, i =>
    if k0 = k then (k0, ids ++ [i]) :: rest else (k0, ids) :: mapAppend rest k i

/-- The id list stored under a key (empty when absent). -/
def lookupIds (k : String) : KeyMap → List Nat
  | [] => []
  | (k0, ids) :: rest => if k0 = k then ids else lookupIds k rest

/-- Loop body of `_HashSimilarityStrategy.prepare`: compute the unit's
key and append its id under it; a unit whose key computation raises is
skipped (`except Exception: continue`), modelled by the key function
returning `none`. -/
def prepStep (key : CodeUnit → Option String) (m : KeyMap) (u : CodeUnit) :
    KeyMap :=
  match key u with
  | none => m
  | some k => mapAppend m k u.id

/-- `_HashSimilarityStrategy.prepare`: fold the loop body over the units,
starting from the fresh instance's empty map. -/
def prepare (key : CodeUnit → Option String) (units : List CodeUnit) : KeyMap :=
  units.foldl (prepStep key) []

/-- The inner double loop of `find_clusters`: one `Match` with score `1.0`
for every pair `ids[i], ids[j]` with `i < j`, in loop order. -/
def pairMatches (name : String) : List Nat → List Match
  | [] => []
  | i :: rest =>
    rest.map (fun j => { a_id := i, b_id := j, score := 1, strategy := name }) ++
      pairMatches name rest

/-- Loop body of `_HashSimilarityStrategy.find_clusters`, with the running
cluster-id counter `cid`: groups of at most one member are skipped, every
other group becomes one `Cluster` (with a copy of its id list and
`score_min = score_max = 1.0`) followed by its pairwise matches. -/
def findClustersAux (name : String) : KeyMap → Nat → List Cluster × List Match
  | [], _ => ([], [])
  | (_, ids) :: rest, cid =>
    if ids.length ≤ 1 then findClustersAux name rest cid
    else
      let r := findClustersAux name rest (cid + 1)
      ({ id := cid, member_ids := ids, strategy := name,
         score_min := 1, score_max := 1 } :: r.1,
       pairMatches name ids ++ r.2)

/-- `_HashSimilarityStrategy.find_clusters` (its `units` parameter is
unused by the Python body, which iterates `self.map.items()`). -/
def find_clusters (name : String) (m : KeyMap) : List Cluster × List Match :=
  findClustersAux name m 0

/-! ### Specification-side restatement of the grouping algorithm

The claims describe `find_clusters` declaratively; the following two
definitions transcribe that description (filter the groups of at least
two members, number them from the given start in map order, emit the
pairwise matches group by group), to be proved equal to the code. -/

def clustersSpecFrom (name : String) (start : Nat) (m : KeyMap) :
    List Cluster :=
  (m.filter (fun kv => decide (2 ≤ kv.2.length))).enumFrom start |>.map
    (fun p => { id := p.1, member_ids := p.2.2, strategy := name,
                score_min := 1, score_max := 1 })

/-- Clusters as the claims state them: one per key whose id list has at
least two members, numbered from `0` in map-iteration order. -/
def clustersSpec (name : String) (m : KeyMap) : List Cluster :=
  clustersSpecFrom name 0 m

/-- Matches as the claims state them: for each kept group, one match per
unordered pair in `i < j` order. -/
def matchesSpec (name : String) (m : KeyMap) : List Match :=
  (m.filter (fun kv => decide (2 ≤ kv.2.length))).flatMap
    (fun kv => pairMatches name kv.2)

/-- `hashlib.sha256(text.encode("utf-8", errors="ignore")).hexdigest()` is
an external collision-resistant hash of the UTF-8 bytes; the engine only
compares digests for equality, and the design assumes no collisions, so it
is modelled as an injective encoding — the identity on the hashed text. -/
def sha256_hexdigest (text : String) : String := text

/-- `ExactHashStrategy._key`: hash of the whitespace-normalized source. -/
def exactKey (u : CodeUnit) : Option String :=
  some (sha256_hexdigest (normalize_text u.source))

/-! ## Python constant values (`ast.Constant.value`)

Float and complex payloads are carried as their display literals: the
engine never computes with them — `visit_Constant` discards every numeric
payload — so only their kind matters. -/

inductive PyConstVal where
  | pstr (s : String)
  | pint (n : Int)
  | pfloat (lit : String)
  | pcomplex (lit : String)
  | pbool (b : Bool)
  | pbytes (bs : String)
  | pnone
  | pellipsis
deriving DecidableEq, Repr

/-- `isinstance(v, str)`. -/
def isinstStr : PyConstVal → Bool
  | .pstr _ => true
  | _ => false

/-- `isinstance(v, (int, float, complex))`.  In Python, `bool` is a
subclass of `int`, so `True` and `False` satisfy this check. -/
def isinstNum : PyConstVal → Bool
  | .pint _ => true
  | .pfloat _ => true
  | .pcomplex _ => true
  | .pbool _ => true
  | _ => false

/-- `isinstance(v, bytes)`. -/
def isinstBytes : PyConstVal → Bool
  | .pbytes _ => true
  | _ => false

/-- `_Canonicalize.visit_Constant` (`ast_canonical.py` lines 58-67), at
the level of the constant's value (`copy_location` only transfers position
attributes, which the canonical dump excludes): strings become `"STR"`,
`(int, float, complex)` instances become `0`, bytes become `b"BYTES"`,
anything else is returned unchanged. -/
def visit_Constant (v : PyConstVal) : PyConstVal :=
  if isinstStr v then .pstr "STR"
  else if isinstNum v then .pint 0
  else if isinstBytes v then .pbytes "BYTES"
  else v

/-! ## Python syntax trees

The node shapes the extractor and the canonicalizer actually read:
functions and classes carry their 1-based line span; `other` stands for
any remaining node kind and carries the node's `body` attribute (the only
children the extractor's generic branch walks). -/

inductive PyNode where
  | functionDef (isAsync : Bool) (name : String) (lineno endLineno : Nat)
      (args : List String) (body : List PyNode) (decorators : List PyNode)
  | classDef (name : String) (lineno endLineno : Nat) (body : List PyNode)
  | exprStmt (value : PyNode)
  | assign (targets : List PyNode) (value : PyNode)
  | ret (value : Option PyNode)
  | nameExpr (id : String)
  | attributeExpr (value : PyNode) (attr : String)
  | constant (value : PyConstVal)
  | call (func : PyNode) (args : List PyNode) (keywords : List PyNode)
  | keywordArg (arg : Option String) (value : PyNode)
  | importNames (aliases : List (String × Option String))
  | binOp (left : PyNode) (op : String) (right : PyNode)
  | other (kind : String) (body : List PyNode)

/-! ## Canonicalizer (`locus/similarity/ast_canonical.py`) -/

mutual
/-- The `_Canonicalize` transformer (`ast.NodeTransformer`): node kinds
with a dedicated `visit_*` method follow it, all others take
`generic_visit`, which rewrites every child node in place.
`visit_FunctionDef` renames the routine to `FUNC`, visits decorators and
arguments (every `arg` name becomes `ID`), drops a leading string-literal
docstring statement, and visits the remaining body;
`visit_AsyncFunctionDef` delegates to it, keeping the async node kind. -/
def canonVisit : PyNode → PyNode
  | .functionDef isAsync _ l e args (.exprStmt (.constant (.pstr _)) :: rest)
      decorators =>
    .functionDef isAsync "FUNC" l e (args.map (fun _ => "ID"))
      (canonVisitList rest) (canonVisitList decorators)
  | .functionDef isAsync _ l e args body decorators =>
    .functionDef isAsync "FUNC" l e (args.map (fun _ => "ID"))
      (canonVisitList body) (canonVisitList decorators)
  | .classDef n l e body => .classDef n l e (canonVisitList body)
  | .exprStmt v => .exprStmt (canonVisit v)
  | .assign ts v => .assign (canonVisitList ts) (canonVisit v)
  | .ret v => .ret (canonVisitOpt v)
  | .nameExpr _ => .nameExpr "ID"
  | .attributeExpr v _ => .attributeExpr (canonVisit v) "ID"
  | .constant v => .constant (visit_Constant v)
  | .call f args kws => .call (canonVisit f) (canonVisitList args) (canonVisitList kws)
  | .keywordArg a v => .keywordArg (a.map (fun _ => "KW")) (canonVisit v)
  | .importNames aliases =>
    .importNames (aliases.map (fun al => ("ID", al.2.map (fun _ => "ID"))))
  | .binOp a op b => .binOp (canonVisit a) op (canonVisit b)
  | .other k body => .other k (canonVisitList body)
termination_by n => sizeOf n

def canonVisitList : List PyNode → List PyNode
  | [] => []
  | n :: ns => canonVisit n :: canonVisitList ns
termination_by l => sizeOf l

def canonVisitOpt : Option PyNode → Option PyNode
  | none => none
  | some n => some (canonVisit n)
termination_by o => sizeOf o
end

/-! Node counting (`_count_nodes` via `ast.walk`).  Counts are
approximate up to unmodelled helper nodes (expression contexts,
operators); only the failure value `0` is specified behaviour. -/

mutual
def countNode : PyNode → Nat
  | .functionDef _ _ _ _ args body decorators =>
    1 + args.length + countList body + countList decorators
  | .classDef _ _ _ body => 1 + countList body
  | .exprStmt v => 1 + countNode v
  | .assign ts v => 1 + countList ts + countNode v
  | .ret v => 1 + countOpt v
  | .nameExpr _ => 1
  | .attributeExpr v _ => 1 + countNode v
  | .constant _ => 1
  | .call f args kws => 1 + countNode f + countList args + countList kws
  | .keywordArg _ v => 1 + countNode v
  | .importNames aliases => 1 + aliases.length
  | .binOp a _ b => 1 + countNode a + countNode b
  | .other _ body => 1 + countList body

def countList : List PyNode → Nat
  | [] => 0
  | n :: ns => countNode n + countList ns

def countOpt : Option PyNode → Nat
  | none => 0
  | some n => countNode n
end

/-- Python `repr` quoting for the placeholder literals appearing in
canonical dumps (they contain no characters needing escapes). -/
def strLit (s : String) : String := "\x27" ++ s ++ "\x27"

def commaSep : List String → String
  | [] => ""
  | [s] => s
  | s :: ss => s ++ ", " ++ commaSep ss

def constValRepr : PyConstVal → String
  | .pstr s => strLit s
  | .pint n => toString n
  | .pfloat lit => lit
  | .pcomplex lit => lit
  | .pbool b => if b then "True" else "False"
  | .pbytes bs => "b" ++ strLit bs
  | .pnone => "None"
  | .pellipsis => "Ellipsis"

mutual
/-- Field-annotated structural rendering of a node, as in
`ast.dump(tree, annotate_fields=True, include_attributes=False)`:
position attributes are excluded, every field is named.  The exact
textual shape is an implementation detail (spec §9); determinism is what
matters. -/
def dumpNode : PyNode → String
  | .functionDef isAsync n _ _ args body decorators =>
    (if isAsync then "AsyncFunctionDef(name=" else "FunctionDef(name=") ++
      strLit n ++ ", args=arguments(args=[" ++
      commaSep (args.map (fun a => "arg(arg=" ++ strLit a ++ ")")) ++
      "]), body=[" ++ dumpSeq body ++ "], decorator_list=[" ++
      dumpSeq decorators ++ "])"
  | .classDef n _ _ body =>
    "ClassDef(name=" ++ strLit n ++ ", body=[" ++ dumpSeq body ++ "])"
  | .exprStmt v => "Expr(value=" ++ dumpNode v ++ ")"
  | .assign ts v =>
    "Assign(targets=[" ++ dumpSeq ts ++ "], value=" ++ dumpNode v ++ ")"
  | .ret v => "Return(value=" ++ dumpOpt v ++ ")"
  | .nameExpr i => "Name(id=" ++ strLit i ++ ")"
  | .attributeExpr v a =>
    "Attribute(value=" ++ dumpNode v ++ ", attr=" ++ strLit a ++ ")"
  | .constant v => "Constant(value=" ++ constValRepr v ++ ")"
  | .call f args kws =>
    "Call(func=" ++ dumpNode f ++ ", args=[" ++ dumpSeq args ++
      "], keywords=[" ++ dumpSeq kws ++ "])"
  | .keywordArg a v =>
    "keyword(arg=" ++ (match a with | none => "None" | some s => strLit s) ++
      ", value=" ++ dumpNode v ++ ")"
  | .importNames aliases =>
    "Import(names=[" ++
      commaSep (aliases.map (fun al =>
        "alias(name=" ++ strLit al.1 ++ ", asname=" ++
          (match al.2 with | none => "None" | some s => strLit s) ++ ")")) ++
      "])"
  | .binOp a op b =>
    "BinOp(left=" ++ dumpNode a ++ ", op=" ++ op ++ "(), right=" ++
      dumpNode b ++ ")"
  | .other k body => k ++ "(body=[" ++ dumpSeq body ++ "])"

def dumpSeq : List PyNode → String
  | [] => ""
  | [n] => dumpNode n
  | n :: ns => dumpNode n ++ ", " ++ dumpSeq ns

def dumpOpt : Option PyNode → String
  | none => "None"
  | some n => dumpNode n
end

/-! ## `textwrap.dedent` and the canonicalization entry points -/

/-- Python `str.split(sep)` for a one-character separator: an empty
string yields one empty piece; separators at the ends yield empty
pieces. -/
def splitOnChar (sep : Char) : List Char → List (List Char)
  | [] => [[]]
  | d :: ds =>
    let r := splitOnChar sep ds
    if d = sep then [] :: r
    else
      match r with
      | s :: ss => (d :: s) :: ss
      | [] => [[d]]

/-- Python `sep.join(pieces)` for a one-character separator. -/
def joinWithChar (sep : Char) : List (List Char) → List Char
  | [] => []
  | [l] => l
  | l :: ls => l ++ sep :: joinWithChar sep ls

/-- A line matching `_whitespace_only_re`, i.e. `^[ \t]+$`. -/
def wsOnlyLine (l : List Char) : Bool :=
  !l.isEmpty && l.all (fun c => c = ' ' || c = '\t')

/-- The capture of `_leading_whitespace_re`, i.e. `(^[ \t]*)(?:[^ \t\n])`,
on one line: the leading space/tab run, provided some other character
follows it (split lines contain no newline). -/
def lineIndent (l : List Char) : Option (List Char) :=
  let lead := l.takeWhile (fun c => c = ' ' || c = '\t')
  if lead.length < l.length then some lead else none

/-- Longest common prefix of two character lists. -/
def commonPre : List Char → List Char → List Char
  | a :: ta, b :: tb => if a = b then a :: commonPre ta tb else []
  | _, _ => []

/-- `textwrap.dedent(text)` (CPython): blank out whitespace-only lines,
compute the margin over the indents of the remaining non-empty lines
(the `startswith` fast paths and the character loop of the CPython
implementation together compute exactly the longest common prefix), then
remove the margin from every line that starts with it. -/
def dedent (text : String) : String :=
  let lines := (splitOnChar '\n' text.data).map (fun l => if wsOnlyLine l then [] else l)
  let indents := lines.filterMap lineIndent
  let margin := indents.foldl
    (fun m ind =>
      match m with
      | none => some ind
      | some m0 => some (commonPre m0 ind))
    none
  match margin with
  | none => ⟨joinWithChar '\n' lines⟩
  | some m =>
    if m.isEmpty then ⟨joinWithChar '\n' lines⟩
    else ⟨joinWithChar '\n'
      (lines.map (fun l => if m.isPrefixOf l then l.drop m.length else l))⟩

/-- Python `str.strip()` on a `String`. -/
def pyStripString (s : String) : String := ⟨pyStrip s.data⟩

/-- The canonical dump of the transformed tree, whose root is the parsed
`Module` (no `visit_Module` exists, so the module node itself only has its
children rewritten). -/
def dumpModule (body : List PyNode) : String :=
  "Module(body=[" ++ dumpSeq body ++ "], type_ignores=[])"

def countModule (body : List PyNode) : Nat := 1 + countList body

/-- `canonicalize_function_info` (`ast_canonical.py` lines 93-113):
dedent, parse, transform, dump and count; on failure fall back to the
dedented and stripped original text with node count `0`.  `ast.parse` is
the external CPython parser, passed as a parameter returning the parsed
module body; `none` models a raised exception.  The transformer and dump
are total functions in the embedding, so the `except Exception` branch is
reached exactly on parse failure.  `ast.fix_missing_locations` only
patches position attributes, which the dump excludes, and is a structural
no-op. -/
def canonicalize_function_info (parse : String → Option (List PyNode))
    (source : String) : String × Nat :=
  let src := dedent source
  match parse src with
  | some body =>
    let tree := canonVisitList body
    (dumpModule tree, countModule tree)
  | none => (pyStripString (dedent source), 0)

/-- `canonicalize_function_source`: the canonical string alone. -/
def canonicalize_function_source (parse : String → Option (List PyNode))
    (source : String) : String :=
  (canonicalize_function_info parse source).1

/-- `ASTCanonicalHashStrategy._key`. -/
def astKey (parse : String → Option (List PyNode)) (u : CodeUnit) :
    Option String :=
  some (sha256_hexdigest (canonicalize_function_source parse u.source))

/-! ## Unit extractor (`locus/similarity/extractor.py`) -/

structure FileInfo where
  filename : String
  absolute_path : String
  relative_path : String
deriving DecidableEq, Repr

/-- The fields of a `FileAnalysis` the extractor reads; `content` is
`Optional[str]` (`analysis.content or ""`). -/
structure FileAnalysis where
  file_info : FileInfo
  content : Option String
deriving DecidableEq, Repr

/-- The slice of `AnalysisResult` the engine reads: the insertion-ordered
map `required_files` from absolute path to per-file analysis. -/
structure AnalysisResult where
  required_files : List (String × FileAnalysis)
deriving DecidableEq, Repr

def _qualify_name (stack : List String) (name : String) : String :=
  if stack.isEmpty then name else String.intercalate "." (stack ++ [name])

/-- `ast.get_source_segment(src, node) or ""` modelled by whole-line
slicing — the code's own `except` fallback
`"\n".join(lines[start - 1 : end])`.  Column offsets are not represented
in this embedding, so the primary path and the fallback coincide. -/
def sourceSegment (src : String) (startLine endLine : Nat) : String :=
  ⟨joinWithChar '\n'
    (((splitOnChar '\n' src.data).drop (startLine - 1)).take
      (endLine - (startLine - 1)))⟩

mutual
/-- The nested `visit(node, class_stack)` of `extract_code_units`: classes
push their name and recurse into their body without emitting a unit;
functions and methods (sync or async) emit a `CodeUnit` carrying the next
id, the dot-joined qualname, the 1-based line span and the recovered
source slice, then recurse into their body (the enclosing function's name
is not pushed); every other node recurses into `getattr(node, "body", [])`. -/
def visitExtract (src : String) (fi : FileInfo) (stack : List String)
    (nextId : Nat) : PyNode → List CodeUnit × Nat
  | .classDef n _ _ body => visitExtractList src fi (stack ++ [n]) nextId body
  | .functionDef _ n lineno endLineno _ body _ =>
    let u : CodeUnit :=
      { id := nextId, file := fi.absolute_path, rel_path := fi.relative_path,
        qualname := _qualify_name stack n, span := (lineno, endLineno),
        source := sourceSegment src lineno endLineno }
    let r := visitExtractList src fi stack (nextId + 1) body
    (u :: r.1, r.2)
  | .exprStmt _ => ([], nextId)
  | .assign _ _ => ([], nextId)
  | .ret _ => ([], nextId)
  | .nameExpr _ => ([], nextId)
  | .attributeExpr _ _ => ([], nextId)
  | .constant _ => ([], nextId)
  | .call _ _ _ => ([], nextId)
  | .keywordArg _ _ => ([], nextId)
  | .importNames _ => ([], nextId)
  | .binOp _ _ _ => ([], nextId)
  | .other _ body => visitExtractList src fi stack nextId body

def visitExtractList (src : String) (fi : FileInfo) (stack : List String)
    (nextId : Nat) : List PyNode → List CodeUnit × Nat
  | [] => ([], nextId)
  | n :: ns =>
    let r1 := visitExtract src fi stack nextId n
    let r2 := visitExtractList src fi stack r1.2 ns
    (r1.1 ++ r2.1, r2.2)
end

/-- Per-file body of the `extract_code_units` loop: skip filenames not
ending in `.py` (case-insensitively), empty or missing content, and files
whose parse raises (`except Exception: continue`, modelled by `parse`
returning `none`); otherwise walk the file's tree, appending its units and
threading the globally increasing next id. -/
def extractStep (parse : String → Option (List PyNode))
    (acc : List CodeUnit × Nat) (kv : String × FileAnalysis) :
    List CodeUnit × Nat :=
  let analysis := kv.2
  if !pyEndsWith (pyLower analysis.file_info.filename) ".py" then acc
  else
    let src := analysis.content.getD ""
    if src = "" then acc
    else
      match parse src with
      | none => acc
      | some body =>
        let r := visitExtractList src analysis.file_info [] acc.2 body
        (acc.1 ++ r.1, r.2)

/-- `extract_code_units`: iterate the analyzed files in map order,
accumulating units under a globally increasing id starting at `0`. -/
def extract_code_units (parse : String → Option (List PyNode))
    (result : AnalysisResult) : List CodeUnit :=
  (result.required_files.foldl (extractStep parse) ([], 0)).1

/-! ## Runner (`locus/similarity/search.py`) -/

/-- `SimilarityConfig`.  The `strategy` field is annotated
`Literal["exact", "ast"]` in Python, but literal annotations are not
enforced at runtime, so it is modelled as an arbitrary string. -/
structure SimilarityConfig where
  strategy : String := "exact"
  threshold : ℚ := 1
  max_candidates : Nat := 0
  include_init : Bool := false
deriving DecidableEq, Repr

/-- `_filter_units`: with `include_init` the list is returned unchanged;
otherwise every unit whose qualname ends in `.__init__` or equals
`__init__` is skipped. -/
def _filter_units (units : List CodeUnit) (include_init : Bool) :
    List CodeUnit :=
  if include_init then units
  else units.filter
    (fun u => !(pyEndsWith u.qualname ".__init__" || u.qualname = "__init__"))

/-- The key function of the strategy instance `run` allocates: `astKey`
when the configured name is `"ast"`, otherwise `exactKey` (the silent
default branch of the `if`). -/
def runKey (parse : String → Option (List PyNode)) (strategy : String) :
    CodeUnit → Option String :=
  if strategy = "ast" then astKey parse else exactKey

/-- The `name` attribute of the strategy instance `run` allocates. -/
def runStrategyName (strategy : String) : String :=
  if strategy = "ast" then "ast" else "exact"

/-- `run`: extract units, apply the `include_init` filter, select the
strategy by configured name (unrecognized names take the `else` branch,
`ExactHashStrategy`), run `prepare` on the fresh instance's empty key map,
group, and assemble a `SimilarityResult` whose `meta["strategy"]` records
the name of the strategy actually used. -/
def run (parse : String → Option (List PyNode)) (result : AnalysisResult)
    (config : Option SimilarityConfig) : SimilarityResult :=
  let cfg := config.getD {}
  let units := extract_code_units parse result
  let units := _filter_units units cfg.include_init
  let name := runStrategyName cfg.strategy
  let m := prepare (runKey parse cfg.strategy) units
  let r := find_clusters name m
  { units := units, clusters := r.1, «matches» := r.2,
    «meta» := [("strategy", name)] }

/-! ## Lemmas on the whitespace normalizer -/

theorem headNonWsB_head? (l : List Char) :
    headNonWsB l =
      (match l.head? with | none => true | some c => !pyIsSpace c) := by
  cases l <;> rfl

theorem adjacentOk_cons_nonws {a : Char} (l : List Char)
    (h : pyIsSpace a = false) : adjacentOk (a :: l) = adjacentOk l := by
  cases l <;> simp [adjacentOk, h]

theorem adjacentOk_cons_ws {a : Char} (l : List Char)
    (h : pyIsSpace a = true) :
    adjacentOk (a :: l) = (headNonWsB l && adjacentOk l) := by
  cases l <;> simp [adjacentOk, headNonWsB, h]

theorem wsCollapse_mem_space : ∀ (b : Bool) (l : List Char) (c : Char),
    c ∈ wsCollapse b l → pyIsSpace c = true → c = ' '
  | _, [], c, hc, _ => by simp [wsCollapse] at hc
  | b, d :: ds, c, hc, hws => by
    by_cases h : pyIsSpace d
    · cases b with
      | true =>
        rw [wsCollapse, if_pos h, if_pos rfl] at hc
        exact wsCollapse_mem_space true ds c hc hws
      | false =>
        rw [wsCollapse, if_pos h] at hc
        simp only [Bool.false_eq_true, if_false, List.mem_cons] at hc
        rcases hc with hc | hc
        · exact hc
        · exact wsCollapse_mem_space true ds c hc hws
    · rw [wsCollapse, if_neg h] at hc
      rcases List.mem_cons.mp hc with hc | hc
      · subst hc; simp [h] at hws
      · exact wsCollapse_mem_space false ds c hc hws

theorem wsCollapse_adjacent : ∀ l : List Char,
    adjacentOk (wsCollapse false l) = true ∧
    adjacentOk (wsCollapse true l) = true ∧
    headNonWsB (wsCollapse true l) = true
  | [] => by simp [wsCollapse, adjacentOk, headNonWsB]
  | c :: cs => by
    obtain ⟨ih1, ih2, ih3⟩ := wsCollapse_adjacent cs
    by_cases h : pyIsSpace c
    · refine ⟨?_, ?_, ?_⟩
      · rw [wsCollapse, if_pos h]
        simp only [Bool.false_eq_true, if_false]
        rw [adjacentOk_cons_ws _ (by decide), ih3, ih2]
        rfl
      · rw [wsCollapse, if_pos h, if_pos rfl]; exact ih2
      · rw [wsCollapse, if_pos h, if_pos rfl]; exact ih3
    · refine ⟨?_, ?_, ?_⟩
      · rw [wsCollapse, if_neg h, adjacentOk_cons_nonws _ (by simpa using h)]
        exact ih1
      · rw [wsCollapse, if_neg h, adjacentOk_cons_nonws _ (by simpa using h)]
        exact ih1
      · rw [wsCollapse, if_neg h]
        simp [headNonWsB, h]

theorem wsCollapse_head (l : List Char) (h : headNonWsB l = true) :
    headNonWsB (wsCollapse false l) = true := by
  cases l with
  | nil => simp [wsCollapse, headNonWsB]
  | cons c cs =>
    simp only [headNonWsB, Bool.not_eq_eq_eq_not, Bool.not_true] at h
    rw [wsCollapse, if_neg (by simp [h])]
    simp [headNonWsB, h]

theorem wsCollapse_last : ∀ (b : Bool) (l : List Char), l ≠ [] →
    lastNonWsB l = true →
    wsCollapse b l ≠ [] ∧ lastNonWsB (wsCollapse b l) = true
  | _, [], hne, _ => absurd rfl hne
  | b, c :: cs, _, hl => by
    cases cs with
    | nil =>
      have hc : pyIsSpace c = false := by
        simpa [lastNonWsB] using hl
      rw [wsCollapse, if_neg (by simp [hc])]
      constructor
      · simp
      · simpa [wsCollapse, lastNonWsB] using hc
    | cons d ds =>
      have hl2 : lastNonWsB (d :: ds) = true := by
        simpa [lastNonWsB, List.getLast?_cons_cons] using hl
      by_cases h : pyIsSpace c
      · have ih := wsCollapse_last true (d :: ds) (by simp) hl2
        cases b with
        | true => rw [wsCollapse, if_pos h, if_pos rfl]; exact ih
        | false =>
          rw [wsCollapse, if_pos h]
          simp only [Bool.false_eq_true, if_false]
          refine ⟨by simp, ?_⟩
          obtain ⟨hne, hlast⟩ := ih
          obtain ⟨x, xs, hx⟩ := List.exists_cons_of_ne_nil hne
          rw [hx] at hlast ⊢
          simpa [lastNonWsB, List.getLast?_cons_cons] using hlast
      · have ih := wsCollapse_last false (d :: ds) (by simp) hl2
        rw [wsCollapse, if_neg h]
        refine ⟨by simp, ?_⟩
        obtain ⟨hne, hlast⟩ := ih
        obtain ⟨x, xs, hx⟩ := List.exists_cons_of_ne_nil hne
        rw [hx] at hlast ⊢
        simpa [lastNonWsB, List.getLast?_cons_cons] using hlast

theorem wsCollapse_fix : ∀ l : List Char, adjacentOk l = true →
    (∀ c ∈ l, pyIsSpace c = true → c = ' ') →
    wsCollapse false l = l ∧ (headNonWsB l = true → wsCollapse true l = l)
  | [], _, _ => ⟨rfl, fun _ => rfl⟩
  | c :: cs, hadj, hsp => by
    by_cases h : pyIsSpace c
    · have hc : c = ' ' := hsp c (List.mem_cons_self c cs) h
      rw [adjacentOk_cons_ws _ h, Bool.and_eq_true] at hadj
      obtain ⟨hhead, hadj2⟩ := hadj
      have ih := wsCollapse_fix cs hadj2 (fun x hx => hsp x (List.mem_cons_of_mem c hx))
      have htrue : wsCollapse true cs = cs := by
        cases cs with
        | nil => rfl
        | cons d ds => exact ih.2 hhead
      constructor
      · rw [wsCollapse, if_pos h]
        simp only [Bool.false_eq_true, if_false, htrue, hc]
      · intro himp
        simp [headNonWsB, h] at himp
    · rw [adjacentOk_cons_nonws _ (by simpa using h)] at hadj
      have ih := wsCollapse_fix cs hadj (fun x hx => hsp x (List.mem_cons_of_mem c hx))
      constructor
      · rw [wsCollapse, if_neg h, ih.1]
      · intro _
        rw [wsCollapse, if_neg h, ih.1]

/-! Lemmas on `pyStrip`. -/

theorem headNonWsB_dropWhile (l : List Char) :
    headNonWsB (l.dropWhile pyIsSpace) = true := by
  induction l with
  | nil => rfl
  | cons c cs ih =>
    by_cases h : pyIsSpace c
    · rw [List.dropWhile_cons_of_pos h]; exact ih
    · rw [List.dropWhile_cons_of_neg h]
      simpa [headNonWsB] using h

theorem getLast?_dropWhile {α : Type} (p : α → Bool) :
    ∀ l : List α, l.dropWhile p ≠ [] → (l.dropWhile p).getLast? = l.getLast?
  | [], h => absurd rfl h
  | c :: cs, h => by
    by_cases hc : p c
    · rw [List.dropWhile_cons_of_pos hc] at h ⊢
      have hcs : cs ≠ [] := by
        intro he; rw [he] at h; exact h rfl
      obtain ⟨x, xs, hx⟩ := List.exists_cons_of_ne_nil hcs
      rw [getLast?_dropWhile p cs h, hx, List.getLast?_cons_cons]
    · rw [List.dropWhile_cons_of_neg hc]

theorem headNonWsB_reverse (l : List Char) :
    headNonWsB l.reverse = lastNonWsB l := by
  cases hh : l.reverse.head? with
  | none =>
    have : l = [] := by
      have := List.head?_reverse l
      rw [hh] at this
      exact List.getLast?_eq_none_iff.mp this.symm
    subst this; rfl
  | some c =>
    have hl : l.getLast? = some c := by
      rw [← List.head?_reverse, hh]
    cases lr : l.reverse with
    | nil => rw [lr] at hh; simp at hh
    | cons x xs =>
      rw [lr] at hh
      simp only [List.head?_cons, Option.some.injEq] at hh
      subst hh
      simp [headNonWsB, lastNonWsB, hl]

theorem lastNonWsB_pyStripRight (l : List Char) :
    lastNonWsB (pyStripRight l) = true := by
  rw [pyStripRight, ← headNonWsB_reverse, List.reverse_reverse]
  exact headNonWsB_dropWhile l.reverse

theorem headNonWsB_pyStripRight (l : List Char) (h : headNonWsB l = true) :
    headNonWsB (pyStripRight l) = true := by
  rw [pyStripRight, headNonWsB_reverse]
  cases hd : l.reverse.dropWhile pyIsSpace with
  | nil => rfl
  | cons x xs =>
    rw [← hd]
    unfold lastNonWsB
    rw [getLast?_dropWhile pyIsSpace l.reverse (by rw [hd]; simp),
      List.getLast?_reverse]
    rw [headNonWsB_head?] at h
    cases hh : l.head? with
    | none => rfl
    | some c => rw [hh] at h; exact h

theorem dropWhile_of_headNonWs (l : List Char) (h : headNonWsB l = true) :
    l.dropWhile pyIsSpace = l := by
  cases l with
  | nil => rfl
  | cons c cs =>
    have hc : pyIsSpace c = false := by simpa [headNonWsB] using h
    rw [List.dropWhile_cons_of_neg (by simp [hc])]

theorem pyStripRight_of_lastNonWs (l : List Char) (h : lastNonWsB l = true) :
    pyStripRight l = l := by
  have h2 : headNonWsB l.reverse = true := by rw [headNonWsB_reverse]; exact h
  rw [pyStripRight, dropWhile_of_headNonWs _ h2, List.reverse_reverse]

theorem pyStrip_of_clean (l : List Char) (h1 : headNonWsB l = true)
    (h2 : lastNonWsB l = true) : pyStrip l = l := by
  rw [pyStrip, pyStripLeft, dropWhile_of_headNonWs _ h1,
    pyStripRight_of_lastNonWs _ h2]

theorem pyStrip_head (l : List Char) : headNonWsB (pyStrip l) = true :=
  headNonWsB_pyStripRight _ (headNonWsB_dropWhile l)

theorem pyStrip_last (l : List Char) : lastNonWsB (pyStrip l) = true :=
  lastNonWsB_pyStripRight _

/-- Shape of the normalizer's output on the character-list level. -/
theorem normalize_out_clean (l : List Char) :
    headNonWsB (wsCollapse false (pyStrip l)) = true ∧
    lastNonWsB (wsCollapse false (pyStrip l)) = true ∧
    adjacentOk (wsCollapse false (pyStrip l)) = true ∧
    (∀ c ∈ wsCollapse false (pyStrip l), pyIsSpace c = true → c = ' ') := by
  refine ⟨wsCollapse_head _ (pyStrip_head l), ?_, (wsCollapse_adjacent _).1,
    fun c hc => wsCollapse_mem_space false _ c hc⟩
  cases hps : pyStrip l with
  | nil => rfl
  | cons x xs =>
    rw [← hps]
    exact (wsCollapse_last false _ (by rw [hps]; simp) (pyStrip_last l)).2

theorem normalize_text_idem (s : String) :
    normalize_text (normalize_text s) = normalize_text s := by
  obtain ⟨h1, h2, h3, h4⟩ := normalize_out_clean s.data
  have hdata : (normalize_text s).data = wsCollapse false (pyStrip s.data) := rfl
  conv_lhs => rw [normalize_text]
  rw [hdata, pyStrip_of_clean _ h1 h2, (wsCollapse_fix _ h3 h4).1]
  rfl

/-! ## Lemmas on the whitespace-token decomposition -/

theorem wsTokens_nil : wsTokens [] = [] := rfl

theorem wsTokens_cons_ws {c : Char} (cs : List Char) (h : pyIsSpace c = true) :
    wsTokens (c :: cs) = wsTokens cs := by
  rw [wsTokens, wsTokensAux, if_pos h, if_pos rfl]
  rfl

theorem wsTokensAux_ne_nil : ∀ (l : List Char) (cur : List Char),
    cur ≠ [] →
    wsTokensAux cur l =
      (cur.reverse ++ l.takeWhile (fun d => !pyIsSpace d)) ::
        wsTokens (l.dropWhile (fun d => !pyIsSpace d))
  | [], cur, hcur => by
    rw [wsTokensAux, if_neg hcur]
    simp [wsTokens, wsTokensAux]
  | c :: cs, cur, hcur => by
    by_cases h : pyIsSpace c
    · rw [wsTokensAux, if_pos h, if_neg hcur]
      rw [List.takeWhile_cons_of_neg (by simp [h]),
        List.dropWhile_cons_of_neg (by simp [h])]
      rw [wsTokens_cons_ws cs h]
      simp [wsTokens]
  -- nonws head: push onto the accumulator
    · rw [wsTokensAux, if_neg h]
      rw [wsTokensAux_ne_nil cs (c :: cur) (by simp)]
      rw [List.takeWhile_cons_of_pos (by simp [h]),
        List.dropWhile_cons_of_pos (by simp [h])]
      simp

theorem wsTokens_cons_nonws {c : Char} (cs : List Char)
    (h : pyIsSpace c = false) :
    wsTokens (c :: cs) =
      (c :: cs.takeWhile (fun d => !pyIsSpace d)) ::
        wsTokens (cs.dropWhile (fun d => !pyIsSpace d)) := by
  rw [wsTokens, wsTokensAux, if_neg (by simp [h])]
  rw [wsTokensAux_ne_nil cs [c] (by simp)]
  rfl

theorem wsTokens_dropWhile_ws (l : List Char) :
    wsTokens (l.dropWhile pyIsSpace) = wsTokens l := by
  induction l with
  | nil => rfl
  | cons c cs ih =>
    by_cases h : pyIsSpace c
    · rw [List.dropWhile_cons_of_pos h, ih, wsTokens_cons_ws cs h]
    · rw [List.dropWhile_cons_of_neg h]

theorem wsTokens_all_ws (w : List Char) (hw : ∀ c ∈ w, pyIsSpace c = true) :
    wsTokens w = [] := by
  induction w with
  | nil => rfl
  | cons c cs ih =>
    rw [wsTokens_cons_ws cs (hw c (List.mem_cons_self c cs))]
    exact ih fun x hx => hw x (List.mem_cons_of_mem c hx)

theorem takeWhile_append_all {α : Type} (p : α → Bool) (a b : List α)
    (h : ∀ x ∈ a, p x = true) :
    (a ++ b).takeWhile p = a ++ b.takeWhile p := by
  induction a with
  | nil => rfl
  | cons x xs ih =>
    rw [List.cons_append, List.takeWhile_cons_of_pos (h x (List.mem_cons_self x xs)),
      ih fun y hy => h y (List.mem_cons_of_mem x hy), List.cons_append]

theorem dropWhile_append_all {α : Type} (p : α → Bool) (a b : List α)
    (h : ∀ x ∈ a, p x = true) :
    (a ++ b).dropWhile p = b.dropWhile p := by
  induction a with
  | nil => rfl
  | cons x xs ih =>
    rw [List.cons_append, List.dropWhile_cons_of_pos (h x (List.mem_cons_self x xs)),
      ih fun y hy => h y (List.mem_cons_of_mem x hy)]

theorem takeWhile_all_eq_false {α : Type} (p : α → Bool) (w : List α)
    (h : ∀ x ∈ w, p x = false) : w.takeWhile p = [] := by
  cases w with
  | nil => rfl
  | cons x xs =>
    rw [List.takeWhile_cons_of_neg (by simp [h x (List.mem_cons_self x xs)])]

theorem dropWhile_all_eq_false {α : Type} (p : α → Bool) (w : List α)
    (h : ∀ x ∈ w, p x = false) : w.dropWhile p = w := by
  cases w with
  | nil => rfl
  | cons x xs =>
    rw [List.dropWhile_cons_of_neg (by simp [h x (List.mem_cons_self x xs)])]

theorem takeWhile_all_eq_self {α : Type} (p : α → Bool) (l : List α)
    (h : ∀ x ∈ l, p x = true) : l.takeWhile p = l := by
  induction l with
  | nil => rfl
  | cons x xs ih =>
    rw [List.takeWhile_cons_of_pos (h x (List.mem_cons_self x xs)),
      ih fun y hy => h y (List.mem_cons_of_mem x hy)]

theorem dropWhile_all_eq_nil {α : Type} (p : α → Bool) (l : List α)
    (h : ∀ x ∈ l, p x = true) : l.dropWhile p = [] := by
  induction l with
  | nil => rfl
  | cons x xs ih =>
    rw [List.dropWhile_cons_of_pos (h x (List.mem_cons_self x xs)),
      ih fun y hy => h y (List.mem_cons_of_mem x hy)]

theorem dropWhile_head_false {α : Type} (p : α → Bool) :
    ∀ (l : List α) (x : α) (xs : List α), l.dropWhile p = x :: xs →
      p x = false
  | [], x, xs, h => by simp at h
  | c :: cs, x, xs, h => by
    by_cases hc : p c
    · rw [List.dropWhile_cons_of_pos hc] at h
      exact dropWhile_head_false p cs x xs h
    · rw [List.dropWhile_cons_of_neg hc] at h
      rw [← (List.cons.injEq c cs x xs).mp h |>.1]
      simpa using hc

theorem dropWhile_length_le {α : Type} (p : α → Bool) :
    ∀ l : List α, (l.dropWhile p).length ≤ l.length
  | [] => Nat.le_refl 0
  | c :: cs => by
    by_cases h : p c
    · rw [List.dropWhile_cons_of_pos h]
      exact Nat.le_trans (dropWhile_length_le p cs) (Nat.le_succ _)
    · rw [List.dropWhile_cons_of_neg h]

theorem wsTokens_append_ws : ∀ (m w : List Char),
    (∀ c ∈ w, pyIsSpace c = true) → wsTokens (m ++ w) = wsTokens m
  | [], w, hw => by
    rw [List.nil_append, wsTokens_all_ws w hw, wsTokens_nil]
  | c :: cs, w, hw => by
    by_cases h : pyIsSpace c
    · rw [List.cons_append, wsTokens_cons_ws _ h, wsTokens_cons_ws _ h,
        wsTokens_append_ws cs w hw]
    · have hf : pyIsSpace c = false := by simpa using h
      rw [List.cons_append, wsTokens_cons_nonws _ hf, wsTokens_cons_nonws _ hf]
      by_cases hall : ∀ d ∈ cs, pyIsSpace d = false
      · have htk : (cs ++ w).takeWhile (fun d => !pyIsSpace d) =
            cs ++ w.takeWhile (fun d => !pyIsSpace d) :=
          takeWhile_append_all _ cs w (fun x hx => by simp [hall x hx])
        have htkw : w.takeWhile (fun d => !pyIsSpace d) = [] :=
          takeWhile_all_eq_false _ w (fun x hx => by simp [hw x hx])
        have hdr : (cs ++ w).dropWhile (fun d => !pyIsSpace d) =
            w.dropWhile (fun d => !pyIsSpace d) :=
          dropWhile_append_all _ cs w (fun x hx => by simp [hall x hx])
        have hdrw : w.dropWhile (fun d => !pyIsSpace d) = w :=
          dropWhile_all_eq_false _ w (fun x hx => by simp [hw x hx])
        have htkcs : cs.takeWhile (fun d => !pyIsSpace d) = cs :=
          takeWhile_all_eq_self _ cs (fun x hx => by simp [hall x hx])
        have hdrcs : cs.dropWhile (fun d => !pyIsSpace d) = [] :=
          dropWhile_all_eq_nil _ cs (fun x hx => by simp [hall x hx])
        rw [htk, htkw, hdr, hdrw, htkcs, hdrcs, List.append_nil,
          wsTokens_all_ws w hw, wsTokens_nil]
      · have hne : cs.dropWhile (fun d => !pyIsSpace d) ≠ [] := by
          intro hnil
          apply hall
          intro d hd
          have hsplit := List.takeWhile_append_dropWhile
            (p := fun d => !pyIsSpace d) (l := cs)
          rw [← hsplit, hnil, List.append_nil] at hd
          simpa using List.mem_takeWhile_imp hd
        obtain ⟨x, xs, hx⟩ := List.exists_cons_of_ne_nil hne
        have hxws : pyIsSpace x = true := by
          have := dropWhile_head_false (fun d => !pyIsSpace d) cs x xs hx
          simpa using this
        have htkall : ∀ y ∈ cs.takeWhile (fun d => !pyIsSpace d),
            (!pyIsSpace y) = true := by
          intro y hy
          simpa using List.mem_takeWhile_imp hy
        have hsplit := List.takeWhile_append_dropWhile
          (p := fun d => !pyIsSpace d) (l := cs)
        have htk : (cs ++ w).takeWhile (fun d => !pyIsSpace d) =
            cs.takeWhile (fun d => !pyIsSpace d) := by
          conv_lhs => rw [← hsplit]
          rw [List.append_assoc,
            takeWhile_append_all _ _ _ htkall, hx, List.cons_append,
            List.takeWhile_cons_of_neg (by simp [hxws]), List.append_nil]
        have hdr : (cs ++ w).dropWhile (fun d => !pyIsSpace d) =
            cs.dropWhile (fun d => !pyIsSpace d) ++ w := by
          conv_lhs => rw [← hsplit]
          rw [List.append_assoc,
            dropWhile_append_all _ _ _ htkall, hx, List.cons_append,
            List.dropWhile_cons_of_neg (by simp [hxws])]
        rw [htk, hdr,
          wsTokens_append_ws (cs.dropWhile (fun d => !pyIsSpace d)) w hw]
termination_by m w _ => m.length
decreasing_by
  all_goals
    simp only [List.length_cons]
    try have := dropWhile_length_le (fun d => !pyIsSpace d) cs
    omega

theorem wsTokens_pyStripRight (l : List Char) :
    wsTokens (pyStripRight l) = wsTokens l := by
  have hsplit : l.reverse.takeWhile pyIsSpace ++ l.reverse.dropWhile pyIsSpace
      = l.reverse :=
    List.takeWhile_append_dropWhile (p := pyIsSpace) (l := l.reverse)
  have hdecomp : l = (l.reverse.dropWhile pyIsSpace).reverse ++
      (l.reverse.takeWhile pyIsSpace).reverse := by
    conv_lhs => rw [← List.reverse_reverse l, ← hsplit]
    rw [List.reverse_append]
  conv_rhs => rw [hdecomp]
  rw [pyStripRight, wsTokens_append_ws]
  intro c hc
  rw [List.mem_reverse] at hc
  exact List.mem_takeWhile_imp hc

theorem wsTokens_pyStrip (l : List Char) :
    wsTokens (pyStrip l) = wsTokens l := by
  rw [pyStrip, pyStripLeft, wsTokens_pyStripRight, wsTokens_dropWhile_ws]

theorem joinTokens_cons_ne_nil (t : List Char) (ts : List (List Char))
    (h : ts ≠ []) : joinTokens (t :: ts) = t ++ ' ' :: joinTokens ts := by
  cases ts with
  | nil => exact absurd rfl h
  | cons a b => rfl

theorem wsCollapse_append_nonws : ∀ (a b : List Char),
    (∀ c ∈ a, pyIsSpace c = false) →
    wsCollapse false (a ++ b) = a ++ wsCollapse false b
  | [], _, _ => rfl
  | c :: cs, b, h => by
    rw [List.cons_append, wsCollapse,
      if_neg (by simp [h c (List.mem_cons_self c cs)]),
      wsCollapse_append_nonws cs b (fun x hx => h x (List.mem_cons_of_mem c hx)),
      List.cons_append]

theorem wsCollapse_true_eq (l : List Char) :
    wsCollapse true l = wsCollapse false (l.dropWhile pyIsSpace) := by
  induction l with
  | nil => rfl
  | cons c cs ih =>
    by_cases h : pyIsSpace c
    · rw [List.dropWhile_cons_of_pos h, ← ih, wsCollapse, if_pos h, if_pos rfl]
    · rw [List.dropWhile_cons_of_neg h]
      show wsCollapse true (c :: cs) = wsCollapse false (c :: cs)
      conv_lhs => rw [wsCollapse, if_neg h]
      conv_rhs => rw [wsCollapse, if_neg h]

theorem lastNonWsB_cons_of_ne {c : Char} (l : List Char) (h : l ≠ []) :
    lastNonWsB (c :: l) = lastNonWsB l := by
  obtain ⟨x, xs, rfl⟩ := List.exists_cons_of_ne_nil h
  simp [lastNonWsB, List.getLast?_cons_cons]

theorem lastNonWsB_append_right (a b : List Char) (h : b ≠ []) :
    lastNonWsB (a ++ b) = lastNonWsB b := by
  induction a with
  | nil => rfl
  | cons x xs ih =>
    rw [List.cons_append,
      lastNonWsB_cons_of_ne _ (fun hn => h (List.append_eq_nil.mp hn).2), ih]

theorem all_of_dropWhile_nil {α : Type} (p : α → Bool) :
    ∀ l : List α, l.dropWhile p = [] → ∀ x ∈ l, p x = true
  | [], _, x, hx => by simp at hx
  | c :: cs, h, x, hx => by
    by_cases hc : p c
    · rw [List.dropWhile_cons_of_pos hc] at h
      rcases List.mem_cons.mp hx with rfl | hx2
      · exact hc
      · exact all_of_dropWhile_nil p cs h x hx2
    · rw [List.dropWhile_cons_of_neg hc] at h
      simp at h

theorem lastNonWsB_all_ws : ∀ l : List Char, l ≠ [] →
    (∀ x ∈ l, pyIsSpace x = true) → lastNonWsB l = false
  | [], h, _ => absurd rfl h
  | [c], _, hall => by simp [lastNonWsB, hall c (List.mem_cons_self c [])]
  | c :: d :: ds, _, hall => by
    rw [lastNonWsB_cons_of_ne _ (by simp)]
    exact lastNonWsB_all_ws (d :: ds) (by simp)
      (fun x hx => hall x (List.mem_cons_of_mem c hx))

/-- The normalizer, on input without leading or trailing whitespace, is
exactly the single-space interleaving of the whitespace-token
decomposition. -/
theorem wsCollapse_eq_joinTokens : ∀ l : List Char,
    headNonWsB l = true → lastNonWsB l = true →
    wsCollapse false l = joinTokens (wsTokens l)
  | [], _, _ => rfl
  | c :: cs, hh, hl => by
    have hcf : pyIsSpace c = false := by simpa [headNonWsB] using hh
    rw [wsTokens_cons_nonws cs hcf]
    have hsplit := List.takeWhile_append_dropWhile
      (p := fun d => !pyIsSpace d) (l := cs)
    have htkall : ∀ y ∈ cs.takeWhile (fun d => !pyIsSpace d),
        pyIsSpace y = false := by
      intro y hy
      simpa using List.mem_takeWhile_imp hy
    rw [wsCollapse, if_neg (by simp [hcf])]
    conv_lhs => rw [← hsplit]
    rw [wsCollapse_append_nonws _ _ htkall]
    cases hdr : cs.dropWhile (fun d => !pyIsSpace d) with
    | nil =>
      rw [wsTokens_nil]
      show c :: (List.takeWhile (fun d => !pyIsSpace d) cs ++ wsCollapse false [])
        = joinTokens [c :: List.takeWhile (fun d => !pyIsSpace d) cs]
      rw [show wsCollapse false [] = [] from rfl, List.append_nil]
      rfl
    | cons x xs =>
      have hxws : pyIsSpace x = true := by
        simpa using dropWhile_head_false (fun d => !pyIsSpace d) cs x xs hdr
      have hcsne : cs ≠ [] := by
        intro he
        rw [he] at hdr
        simp at hdr
      have hlcs : lastNonWsB cs = true := by
        rw [← lastNonWsB_cons_of_ne cs hcsne]
        exact hl
      have hlxxs : lastNonWsB (x :: xs) = true := by
        rw [← lastNonWsB_append_right (cs.takeWhile (fun d => !pyIsSpace d))
          (x :: xs) (by simp), ← hdr, hsplit]
        exact hlcs
      have hxsne : xs ≠ [] := by
        intro he
        rw [he] at hlxxs
        simp [lastNonWsB, hxws] at hlxxs
      have hlxs : lastNonWsB xs = true := by
        rw [← lastNonWsB_cons_of_ne xs hxsne]
        exact hlxxs
      have hene : xs.dropWhile pyIsSpace ≠ [] := by
        intro he
        have := lastNonWsB_all_ws xs hxsne (all_of_dropWhile_nil pyIsSpace xs he)
        rw [hlxs] at this
        exact absurd this (by decide)
      have hle : lastNonWsB (xs.dropWhile pyIsSpace) = true := by
        rw [lastNonWsB, getLast?_dropWhile pyIsSpace xs hene, ← lastNonWsB]
        exact hlxs
      have hhe : headNonWsB (xs.dropWhile pyIsSpace) = true :=
        headNonWsB_dropWhile xs
      have ih := wsCollapse_eq_joinTokens (xs.dropWhile pyIsSpace) hhe hle
      have htokne : wsTokens (xs.dropWhile pyIsSpace) ≠ [] := by
        obtain ⟨y, ys, hy⟩ := List.exists_cons_of_ne_nil hene
        have hyf : pyIsSpace y = false := by
          have := headNonWsB_dropWhile (l := xs)
          rw [hy] at this
          simpa [headNonWsB] using this
        rw [hy, wsTokens_cons_nonws ys hyf]
        simp
      have htok : wsTokens (x :: xs) = wsTokens (xs.dropWhile pyIsSpace) := by
        rw [wsTokens_cons_ws xs hxws, wsTokens_dropWhile_ws]
      rw [htok, joinTokens_cons_ne_nil _ _ htokne, List.cons_append]
      rw [show wsCollapse false (x :: xs) = ' ' :: wsCollapse true xs by
        rw [wsCollapse, if_pos hxws]
        simp]
      rw [wsCollapse_true_eq, ih]
termination_by l _ _ => l.length
decreasing_by
  have h1 := dropWhile_length_le pyIsSpace xs
  have h2 := dropWhile_length_le (fun d => !pyIsSpace d) cs
  rw [hdr] at h2
  simp only [List.length_cons] at h2 ⊢
  omega

/-- `normalize_text` is the single-space interleaving of the
whitespace-token decomposition of its input. -/
theorem normalize_text_eq_joinTokens (s : String) :
    normalize_text s = ⟨joinTokens (wsTokens s.data)⟩ := by
  rw [normalize_text,
    wsCollapse_eq_joinTokens _ (pyStrip_head s.data) (pyStrip_last s.data),
    wsTokens_pyStrip]

theorem normalize_text_congr (s t : String)
    (h : wsTokens s.data = wsTokens t.data) :
    normalize_text s = normalize_text t := by
  rw [normalize_text_eq_joinTokens, normalize_text_eq_joinTokens, h]

/-! ## Lemmas on the grouping core -/

theorem lookupIds_mapAppend_self (m : KeyMap) (k : String) (i : Nat) :
    lookupIds k (mapAppend m k i) = lookupIds k m ++ [i] := by
  induction m with
  | nil => simp [mapAppend, lookupIds]
  | cons kv rest ih =>
    obtain ⟨k0, ids⟩ := kv
    by_cases h : k0 = k
    · rw [mapAppend, if_pos h, lookupIds, if_pos h, lookupIds, if_pos h]
    · rw [mapAppend, if_neg h, lookupIds, if_neg h, lookupIds, if_neg h, ih]

theorem lookupIds_mapAppend_other (m : KeyMap) (k k2 : String) (i : Nat)
    (hne : k2 ≠ k) :
    lookupIds k2 (mapAppend m k i) = lookupIds k2 m := by
  induction m with
  | nil =>
    rw [mapAppend,
      show lookupIds k2 [(k, [i])] = if k = k2 then [i] else [] from rfl,
      if_neg (fun he => hne he.symm), show lookupIds k2 [] = [] from rfl]
  | cons kv rest ih =>
    obtain ⟨k0, ids⟩ := kv
    by_cases h : k0 = k
    · have hk02 : ¬ k0 = k2 := fun he => hne (he ▸ h)
      rw [mapAppend, if_pos h, lookupIds, if_neg hk02, lookupIds, if_neg hk02]
    · rw [mapAppend, if_neg h, lookupIds, lookupIds]
      by_cases h2 : k0 = k2
      · rw [if_pos h2, if_pos h2]
      · rw [if_neg h2, if_neg h2, ih]

theorem lookupIds_prepare_fold (key : CodeUnit → Option String) (k : String) :
    ∀ (units : List CodeUnit) (m : KeyMap),
      lookupIds k (units.foldl (prepStep key) m) =
        lookupIds k m ++
          (units.filter (fun u => decide (key u = some k))).map CodeUnit.id
  | [], m => by simp
  | u :: us, m => by
    rw [List.foldl_cons, lookupIds_prepare_fold key k us (prepStep key m u)]
    cases hk : key u with
    | none =>
      rw [List.filter_cons_of_neg (by simp [hk])]
      simp only [prepStep, hk]
    | some k0 =>
      by_cases hk0 : k0 = k
      · subst hk0
        rw [List.filter_cons_of_pos (by simp [hk]), List.map_cons]
        simp only [prepStep, hk]
        rw [lookupIds_mapAppend_self, List.append_assoc, List.singleton_append]
      · rw [List.filter_cons_of_neg (by simp [hk, hk0])]
        simp only [prepStep, hk]
        rw [lookupIds_mapAppend_other m k0 k u.id (fun he => hk0 he.symm)]

theorem mem_lookupIds_prepare (key : CodeUnit → Option String)
    (units : List CodeUnit) (u : CodeUnit) (k : String)
    (hu : u ∈ units) (hk : key u = some k) :
    u.id ∈ lookupIds k (prepare key units) := by
  rw [prepare, lookupIds_prepare_fold]
  exact List.mem_append_right _
    (List.mem_map_of_mem _ (List.mem_filter.mpr ⟨hu, by simp [hk]⟩))

theorem two_le_length_of_mem_ne {α : Type} (l : List α) (a b : α)
    (ha : a ∈ l) (hb : b ∈ l) (hne : a ≠ b) : 2 ≤ l.length := by
  match l with
  | [] => simp at ha
  | [x] =>
    rw [List.mem_singleton] at ha hb
    exact absurd (ha.trans hb.symm) hne
  | x :: y :: t =>
    simp only [List.length_cons]
    omega

theorem two_le_lookupIds_prepare (key : CodeUnit → Option String)
    (units : List CodeUnit) (u v : CodeUnit) (k : String)
    (hu : u ∈ units) (hv : v ∈ units) (hne : u ≠ v)
    (hku : key u = some k) (hkv : key v = some k) :
    2 ≤ (lookupIds k (prepare key units)).length := by
  rw [prepare, lookupIds_prepare_fold, List.length_append, List.length_map]
  have h2 : 2 ≤ (units.filter (fun w => decide (key w = some k))).length :=
    two_le_length_of_mem_ne _ u v
      (List.mem_filter.mpr ⟨hu, by simp [hku]⟩)
      (List.mem_filter.mpr ⟨hv, by simp [hkv]⟩) hne
  omega

theorem entry_mem_of_lookupIds_ne_nil (k : String) :
    ∀ m : KeyMap, lookupIds k m ≠ [] → (k, lookupIds k m) ∈ m
  | [], h => absurd rfl h
  | (k0, ids) :: rest, h => by
    by_cases hk : k0 = k
    · subst hk
      rw [lookupIds, if_pos rfl] at h ⊢
      exact List.mem_cons_self _ _
    · rw [lookupIds, if_neg hk] at h ⊢
      exact List.mem_cons_of_mem _ (entry_mem_of_lookupIds_ne_nil k rest h)

theorem cluster_of_group (name : String) :
    ∀ (m : KeyMap) (cid : Nat) (k : String) (ids : List Nat),
      (k, ids) ∈ m → 2 ≤ ids.length →
      ∃ c ∈ (findClustersAux name m cid).1, c.member_ids = ids
  | [], _, _, _, hmem, _ => by simp at hmem
  | (k0, ids0) :: rest, cid, k, ids, hmem, hlen => by
    rcases List.mem_cons.mp hmem with heq | hmem2
    · injection heq with h1 h2
      subst h2
      rw [findClustersAux, if_neg (by omega)]
      exact ⟨_, List.mem_cons_self _ _, rfl⟩
    · by_cases hl0 : ids0.length ≤ 1
      · rw [findClustersAux, if_pos hl0]
        exact cluster_of_group name rest cid k ids hmem2 hlen
      · obtain ⟨c, hc, hcm⟩ := cluster_of_group name rest (cid + 1) k ids hmem2 hlen
        rw [findClustersAux, if_neg hl0]
        exact ⟨c, List.mem_cons_of_mem _ hc, hcm⟩

theorem group_of_cluster (name : String) :
    ∀ (m : KeyMap) (cid : Nat) (c : Cluster),
      c ∈ (findClustersAux name m cid).1 →
      ∃ kv ∈ m, c.member_ids = kv.2 ∧ 2 ≤ kv.2.length
  | [], _, c, hc => by simp [findClustersAux] at hc
  | (k0, ids0) :: rest, cid, c, hc => by
    by_cases hl0 : ids0.length ≤ 1
    · rw [findClustersAux, if_pos hl0] at hc
      obtain ⟨kv, hkv, h⟩ := group_of_cluster name rest cid c hc
      exact ⟨kv, List.mem_cons_of_mem _ hkv, h⟩
    · rw [findClustersAux, if_neg hl0] at hc
      rcases List.mem_cons.mp hc with rfl | hc2
      · exact ⟨(k0, ids0), List.mem_cons_self _ _, rfl,
          by show 2 ≤ ids0.length; omega⟩
      · obtain ⟨kv, hkv, h⟩ := group_of_cluster name rest (cid + 1) c hc2
        exact ⟨kv, List.mem_cons_of_mem _ hkv, h⟩

theorem mapAppend_forall {P : Nat → Prop} (m : KeyMap) (k : String) (j : Nat)
    (hm : ∀ kv ∈ m, ∀ i ∈ kv.2, P i) (hj : P j) :
    ∀ kv ∈ mapAppend m k j, ∀ i ∈ kv.2, P i := by
  induction m with
  | nil =>
    intro kv hkv i hi
    rw [mapAppend] at hkv
    rw [List.mem_singleton] at hkv
    subst hkv
    rw [List.mem_singleton] at hi
    subst hi
    exact hj
  | cons kv0 rest ih =>
    obtain ⟨k0, ids⟩ := kv0
    intro kv hkv i hi
    by_cases h : k0 = k
    · rw [mapAppend, if_pos h] at hkv
      rcases List.mem_cons.mp hkv with rfl | hkv2
      · rcases List.mem_append.mp hi with hi1 | hi2
        · exact hm (k0, ids) (List.mem_cons_self _ _) i hi1
        · rw [List.mem_singleton] at hi2
          subst hi2
          exact hj
      · exact hm kv (List.mem_cons_of_mem _ hkv2) i hi
    · rw [mapAppend, if_neg h] at hkv
      rcases List.mem_cons.mp hkv with rfl | hkv2
      · exact hm (k0, ids) (List.mem_cons_self _ _) i hi
      · exact ih (fun kv2 hkv2b => hm kv2 (List.mem_cons_of_mem _ hkv2b)) kv hkv2 i hi

theorem prepare_fold_forall {P : Nat → Prop} (key : CodeUnit → Option String) :
    ∀ (units : List CodeUnit) (m : KeyMap),
      (∀ kv ∈ m, ∀ i ∈ kv.2, P i) → (∀ u ∈ units, P u.id) →
      ∀ kv ∈ units.foldl (prepStep key) m, ∀ i ∈ kv.2, P i
  | [], _, hm, _ => hm
  | u :: us, m, hm, hus => by
    rw [List.foldl_cons]
    refine prepare_fold_forall key us (prepStep key m u) ?_
      (fun v hv => hus v (List.mem_cons_of_mem u hv))
    cases hk : key u with
    | none =>
      simp only [prepStep, hk]
      exact hm
    | some k =>
      simp only [prepStep, hk]
      exact mapAppend_forall m k u.id hm (hus u (List.mem_cons_self u us))

theorem prepare_forall {P : Nat → Prop} (key : CodeUnit → Option String)
    (units : List CodeUnit) (hus : ∀ u ∈ units, P u.id) :
    ∀ kv ∈ prepare key units, ∀ i ∈ kv.2, P i :=
  prepare_fold_forall key units [] (by simp) hus

theorem pairMatches_mem (name : String) :
    ∀ (ids : List Nat) (mt : Match), mt ∈ pairMatches name ids →
      mt.a_id ∈ ids ∧ mt.b_id ∈ ids
  | [], mt, h => by simp [pairMatches] at h
  | i :: rest, mt, h => by
    rw [pairMatches] at h
    rcases List.mem_append.mp h with h1 | h2
    · obtain ⟨j, hj, rfl⟩ := List.mem_map.mp h1
      exact ⟨List.mem_cons_self _ _, List.mem_cons_of_mem _ hj⟩
    · obtain ⟨ha, hb⟩ := pairMatches_mem name rest mt h2
      exact ⟨List.mem_cons_of_mem _ ha, List.mem_cons_of_mem _ hb⟩

theorem match_mem_cluster (name : String) :
    ∀ (m : KeyMap) (cid : Nat) (mt : Match),
      mt ∈ (findClustersAux name m cid).2 →
      ∃ c ∈ (findClustersAux name m cid).1,
        mt.a_id ∈ c.member_ids ∧ mt.b_id ∈ c.member_ids
  | [], _, mt, h => by simp [findClustersAux] at h
  | (k0, ids0) :: rest, cid, mt, h => by
    by_cases hl0 : ids0.length ≤ 1
    · rw [findClustersAux, if_pos hl0] at h ⊢
      exact match_mem_cluster name rest cid mt h
    · rw [findClustersAux, if_neg hl0] at h ⊢
      rcases List.mem_append.mp h with h1 | h2
      · exact ⟨_, List.mem_cons_self _ _, pairMatches_mem name ids0 mt h1⟩
      · obtain ⟨c, hc, hm⟩ := match_mem_cluster name rest (cid + 1) mt h2
        exact ⟨c, List.mem_cons_of_mem _ hc, hm⟩

theorem snd_mem_of_mem_enumFrom {α : Type} :
    ∀ (l : List α) (n : Nat) (p : Nat × α), p ∈ List.enumFrom n l → p.2 ∈ l
  | [], _, p, h => by simp [List.enumFrom] at h
  | x :: xs, n, p, h => by
    rw [show List.enumFrom n (x :: xs)
      = (n, x) :: List.enumFrom (n + 1) xs from rfl] at h
    rcases List.mem_cons.mp h with rfl | h2
    · exact List.mem_cons_self _ _
    · exact List.mem_cons_of_mem _ (snd_mem_of_mem_enumFrom xs (n + 1) p h2)

theorem findClustersAux_eq (name : String) :
    ∀ (m : KeyMap) (cid : Nat),
      findClustersAux name m cid =
        (clustersSpecFrom name cid m, matchesSpec name m)
  | [], cid => by
    simp [findClustersAux, clustersSpecFrom, matchesSpec]
  | (k0, ids0) :: rest, cid => by
    by_cases hl0 : ids0.length ≤ 1
    · have hfc : ((k0, ids0) :: rest).filter (fun kv => decide (2 ≤ kv.2.length))
          = rest.filter (fun kv => decide (2 ≤ kv.2.length)) :=
        List.filter_cons_of_neg (by simp; omega)
      have hcl : clustersSpecFrom name cid ((k0, ids0) :: rest)
          = clustersSpecFrom name cid rest := by
        rw [clustersSpecFrom, clustersSpecFrom, hfc]
      have hms : matchesSpec name ((k0, ids0) :: rest)
          = matchesSpec name rest := by
        rw [matchesSpec, matchesSpec, hfc]
      rw [findClustersAux, if_pos hl0, findClustersAux_eq name rest cid, hcl, hms]
    · have hfc : ((k0, ids0) :: rest).filter (fun kv => decide (2 ≤ kv.2.length))
          = (k0, ids0) :: rest.filter (fun kv => decide (2 ≤ kv.2.length)) :=
        List.filter_cons_of_pos (by simp; omega)
      have hcl : clustersSpecFrom name cid ((k0, ids0) :: rest)
          = { id := cid, member_ids := ids0, strategy := name,
              score_min := 1, score_max := 1 }
            :: clustersSpecFrom name (cid + 1) rest := by
        rw [clustersSpecFrom, clustersSpecFrom, hfc]
        rfl
      have hms : matchesSpec name ((k0, ids0) :: rest)
          = pairMatches name ids0 ++ matchesSpec name rest := by
        rw [matchesSpec, matchesSpec, hfc, List.flatMap_cons]
      rw [findClustersAux, if_neg hl0, findClustersAux_eq name rest (cid + 1),
        hcl, hms]

/-! ## Run-level helper lemmas -/

/-- Definitional shape of `run`: each invocation allocates a fresh
strategy instance, so the key map is always built from the empty map. -/
theorem run_eq (parse : String → Option (List PyNode))
    (result : AnalysisResult) (config : Option SimilarityConfig) :
    run parse result config =
      { units := _filter_units (extract_code_units parse result)
          (config.getD {}).include_init,
        clusters := (find_clusters (runStrategyName (config.getD {}).strategy)
          (prepare (runKey parse (config.getD {}).strategy)
            (_filter_units (extract_code_units parse result)
              (config.getD {}).include_init))).1,
        «matches» := (find_clusters (runStrategyName (config.getD {}).strategy)
          (prepare (runKey parse (config.getD {}).strategy)
            (_filter_units (extract_code_units parse result)
              (config.getD {}).include_init))).2,
        «meta» := [("strategy",
          runStrategyName (config.getD {}).strategy)] } := rfl

/-- Both shipped strategies compute a key for every unit: neither raises. -/
theorem runKey_isSome (parse : String → Option (List PyNode)) (st : String)
    (u : CodeUnit) : ∃ k, runKey parse st u = some k := by
  rw [runKey]
  by_cases h : st = "ast"
  · rw [if_pos h]
    exact ⟨_, rfl⟩
  · rw [if_neg h]
    exact ⟨_, rfl⟩

/-- Two distinct listed units with the same key always share a cluster. -/
theorem coCluster_of_eq_key (name : String) (key : CodeUnit → Option String)
    (units : List CodeUnit) (u v : CodeUnit)
    (hu : u ∈ units) (hv : v ∈ units) (hne : u.id ≠ v.id)
    (k : String) (hku : key u = some k) (hkv : key v = some k) :
    ∃ c ∈ (find_clusters name (prepare key units)).1,
      u.id ∈ c.member_ids ∧ v.id ∈ c.member_ids := by
  have hmu := mem_lookupIds_prepare key units u k hu hku
  have hmv := mem_lookupIds_prepare key units v k hv hkv
  have hlen := two_le_lookupIds_prepare key units u v k hu hv
    (fun he => hne (he ▸ rfl)) hku hkv
  have hne2 : lookupIds k (prepare key units) ≠ [] := by
    intro he
    rw [he] at hmu
    simp at hmu
  obtain ⟨c, hc, hcm⟩ := cluster_of_group name (prepare key units) 0 k
    (lookupIds k (prepare key units)) (entry_mem_of_lookupIds_ne_nil k _ hne2)
    hlen
  rw [find_clusters]
  refine ⟨c, hc, ?_, ?_⟩
  · rw [hcm]
    exact hmu
  · rw [hcm]
    exact hmv

/-- A helper for the two-unit scenarios: preparing exactly two units with
the same key yields the single group `[(k, [u.id, v.id])]`, and grouping
it yields exactly one cluster holding both ids and one match. -/
theorem find_clusters_pair (name : String) (key : CodeUnit → Option String)
    (u v : CodeUnit) (k : String) (hku : key u = some k)
    (hkv : key v = some k) :
    find_clusters name (prepare key [u, v]) =
      ([{ id := 0, member_ids := [u.id, v.id], strategy := name,
          score_min := 1, score_max := 1 }],
       [{ a_id := u.id, b_id := v.id, score := 1, strategy := name }]) := by
  have h1 : prepare key [u, v] = [(k, [u.id, v.id])] := by
    simp [prepare, prepStep, hku, hkv, mapAppend]
  rw [h1, find_clusters, findClustersAux, if_neg (by simp)]
  rw [findClustersAux]
  rfl

theorem filter_units_true (units : List CodeUnit) :
    _filter_units units true = units := by
  rw [_filter_units, if_pos rfl]

/-! ## Claims -/

/-- C1 (code bug): the spec — and the transformer's own inline comment
"Keep True/False/None as-is for structure" — say boolean and null
constants are returned untouched, but in Python `bool` is a subclass of
`int`, so `isinstance(True, (int, float, complex))` holds and
`visit_Constant` collapses `True` and `False` into the numeric
placeholder `0`.  Only `None` is in fact returned unchanged.  Evaluating
the embedded rewrite at the failing inputs: -/
theorem claim_C1 :
    visit_Constant (.pbool true) = .pint 0 ∧
    visit_Constant (.pbool false) = .pint 0 ∧
    visit_Constant .pnone = .pnone ∧
    ¬ visit_Constant (.pbool true) = .pbool true := by
  refine ⟨rfl, rfl, rfl, ?_⟩
  decide

/-- C2 (counterexample): the spec's scenario pair differs by more than
whitespace — `x=1;` versus `x = 1` — so `normalize_text` maps the two
sources to different strings, and the exact strategy over exactly these
two units produces zero clusters and zero matches rather than one
cluster containing both unit ids. -/
theorem claim_C2_counterexample :
    normalize_text "def foo(): x=1; return x" ≠
      normalize_text "def foo():\n  x = 1\n  return x" ∧
    find_clusters "exact" (prepare exactKey
      [⟨0, "a.py", "a.py", "foo", (1, 1), "def foo(): x=1; return x"⟩,
       ⟨1, "b.py", "b.py", "foo", (1, 3),
         "def foo():\n  x = 1\n  return x"⟩]) = ([], []) := by
  refine ⟨by decide, by decide⟩

/-- C2 (amended): for two code units whose sources have the same sequence
of maximal non-whitespace runs — the formalisation of "differ only in
indentation, blank lines, or spacing" — `normalize_text` yields the same
string, so the exact strategy assigns them the same key; two such units
with distinct ids always co-cluster, and running the exact strategy over
exactly those two units produces exactly one cluster containing both
unit ids together with one match.  The pair quoted in the spec is not
whitespace-only-different (it differs by a semicolon and by spaces inside
`x=1`) and instead produces zero clusters — see the counterexample. -/
theorem claim_C2 (u v : CodeUnit)
    (htok : wsTokens u.source.data = wsTokens v.source.data) :
    normalize_text u.source = normalize_text v.source ∧
    (∀ units : List CodeUnit, u ∈ units → v ∈ units → u.id ≠ v.id →
      ∃ c ∈ (find_clusters "exact" (prepare exactKey units)).1,
        u.id ∈ c.member_ids ∧ v.id ∈ c.member_ids) ∧
    find_clusters "exact" (prepare exactKey [u, v]) =
      ([{ id := 0, member_ids := [u.id, v.id], strategy := "exact",
          score_min := 1, score_max := 1 }],
       [{ a_id := u.id, b_id := v.id, score := 1, strategy := "exact" }]) := by
  have hnorm := normalize_text_congr u.source v.source htok
  have hkv : exactKey v = some (sha256_hexdigest (normalize_text u.source)) := by
    rw [exactKey, hnorm]
  refine ⟨hnorm, ?_, ?_⟩
  · intro units hu hv hne
    exact coCluster_of_eq_key "exact" exactKey units u v hu hv hne
      (sha256_hexdigest (normalize_text u.source)) rfl hkv
  · exact find_clusters_pair "exact" exactKey u v
      (sha256_hexdigest (normalize_text u.source)) rfl hkv

/-- C2 witness: a concrete whitespace-only pair, instantiating the
amended claim. -/
theorem claim_C2_witness :
    wsTokens ("def f():  return 1" : String).data =
      (wsTokens ("def f():\n return 1" : String).data) ∧
    normalize_text "def f():  return 1" = normalize_text "def f():\n return 1" ∧
    find_clusters "exact" (prepare exactKey
      [⟨0, "a.py", "a.py", "f", (1, 1), "def f():  return 1"⟩,
       ⟨1, "b.py", "b.py", "f", (1, 2), "def f():\n return 1"⟩]) =
      ([{ id := 0, member_ids := [0, 1], strategy := "exact",
          score_min := 1, score_max := 1 }],
       [{ a_id := 0, b_id := 1, score := 1, strategy := "exact" }]) := by
  refine ⟨by decide, ?_, ?_⟩
  · exact (claim_C2
      ⟨0, "a.py", "a.py", "f", (1, 1), "def f():  return 1"⟩
      ⟨1, "b.py", "b.py", "f", (1, 2), "def f():\n return 1"⟩ (by decide)).1
  · exact (claim_C2
      ⟨0, "a.py", "a.py", "f", (1, 1), "def f():  return 1"⟩
      ⟨1, "b.py", "b.py", "f", (1, 2), "def f():\n return 1"⟩ (by decide)).2.2

/-- C3: `find_clusters` is exactly the declarative description — one
cluster per key whose id list has at least two members, with sequential
ids from `0` in map-iteration order, `score_min = score_max = 1.0` and
`member_ids` equal to that key's id list in order; one match of score
`1.0` per unordered pair in `i < j` member order, grouped in cluster
order; single-member keys contribute nothing, and consequently every
produced cluster has at least two member ids. -/
theorem claim_C3 (name : String) (m : KeyMap) :
    find_clusters name m = (clustersSpec name m, matchesSpec name m) ∧
    ((find_clusters name m).1.all
      (fun c => decide (2 ≤ c.member_ids.length))) = true := by
  refine ⟨findClustersAux_eq name m 0, ?_⟩
  rw [find_clusters, findClustersAux_eq name m 0]
  rw [List.all_eq_true]
  intro c hc
  simp only [clustersSpec, clustersSpecFrom] at hc
  obtain ⟨p, hp, rfl⟩ := List.mem_map.mp hc
  have h2 := snd_mem_of_mem_enumFrom _ _ _ hp
  have h3 := (List.mem_filter.mp h2).2
  simpa using h3

/-- C4: a config whose strategy name is neither `"exact"` nor `"ast"`
makes `run` silently apply the exact strategy — the result equals the run
with the name replaced by `"exact"` — and `meta["strategy"]` records the
strategy actually used: `"exact"` in the fallback case, `"ast"` exactly
when the config says `"ast"`. -/
theorem claim_C4 (parse : String → Option (List PyNode))
    (result : AnalysisResult) (cfg : SimilarityConfig) :
    (cfg.strategy ≠ "exact" → cfg.strategy ≠ "ast" →
      run parse result (some cfg) =
        run parse result (some { cfg with strategy := "exact" }) ∧
      (run parse result (some cfg)).«meta» = [("strategy", "exact")]) ∧
    (cfg.strategy = "ast" →
      (run parse result (some cfg)).«meta» = [("strategy", "ast")]) := by
  constructor
  · intro _ h2
    constructor
    · rw [run_eq, run_eq]
      simp only [Option.getD_some]
      rw [runStrategyName, if_neg h2, runStrategyName,
        if_neg (by decide : ¬("exact" : String) = "ast"),
        runKey, if_neg h2, runKey,
        if_neg (by decide : ¬("exact" : String) = "ast")]
    · rw [run_eq]
      simp only [Option.getD_some]
      rw [runStrategyName, if_neg h2]
  · intro h
    rw [run_eq]
    simp only [Option.getD_some]
    rw [runStrategyName, if_pos h]

/-- C4 witness: the unknown name `"fuzzy"` falls back to the exact
strategy and the fallback is recorded in `meta`. -/
theorem claim_C4_witness :
    run (fun _ => none) ⟨[]⟩ (some { strategy := "fuzzy" }) =
      run (fun _ => none) ⟨[]⟩ (some { strategy := "exact" }) ∧
    (run (fun _ => none) ⟨[]⟩ (some { strategy := "fuzzy" })).«meta» =
      [("strategy", "exact")] :=
  (claim_C4 (fun _ => none) ⟨[]⟩ { strategy := "fuzzy" }).1
    (by decide) (by decide)

/-- C5: with `include_init = false` (the default) the filter removes
exactly the units whose qualname is `__init__` or ends in `.__init__`,
before any keying; with `include_init = true` it returns the unit list
unchanged, and two extracted constructors with distinct ids and equal
keys then do share a cluster; and by default no cluster member ever is an
`__init__` unit. -/
theorem claim_C5 :
    (∀ (units : List CodeUnit) (u : CodeUnit),
      u ∈ _filter_units units false ↔
        u ∈ units ∧
          ¬(pyEndsWith u.qualname ".__init__" = true ∨
            u.qualname = "__init__")) ∧
    (∀ units : List CodeUnit, _filter_units units true = units) ∧
    (∀ (parse : String → Option (List PyNode)) (result : AnalysisResult)
        (cfg : SimilarityConfig) (u v : CodeUnit),
      cfg.include_init = true →
      u ∈ extract_code_units parse result →
      v ∈ extract_code_units parse result →
      u.id ≠ v.id →
      runKey parse cfg.strategy u = runKey parse cfg.strategy v →
      ∃ c ∈ (run parse result (some cfg)).clusters,
        u.id ∈ c.member_ids ∧ v.id ∈ c.member_ids) ∧
    (∀ (parse : String → Option (List PyNode)) (result : AnalysisResult)
        (cfg : SimilarityConfig),
      cfg.include_init = false →
      ∀ c ∈ (run parse result (some cfg)).clusters, ∀ i ∈ c.member_ids,
        ∃ u ∈ (run parse result (some cfg)).units,
          u.id = i ∧
            ¬(pyEndsWith u.qualname ".__init__" = true ∨
              u.qualname = "__init__")) := by
  have hmemf : ∀ (units : List CodeUnit) (u : CodeUnit),
      u ∈ _filter_units units false ↔
        u ∈ units ∧
          ¬(pyEndsWith u.qualname ".__init__" = true ∨
            u.qualname = "__init__") := by
    intro units u
    rw [_filter_units, if_neg (by decide), List.mem_filter]
    constructor
    · rintro ⟨h1, h2⟩
      refine ⟨h1, ?_⟩
      simp only [Bool.not_eq_eq_eq_not, Bool.not_true, Bool.or_eq_false_iff] at h2
      rintro (ha | hb)
      · rw [h2.1] at ha
        exact absurd ha (by decide)
      · have := h2.2
        simp [hb] at this
    · rintro ⟨h1, h2⟩
      refine ⟨h1, ?_⟩
      rw [not_or] at h2
      have ha : pyEndsWith u.qualname ".__init__" = false := by
        rcases Bool.eq_false_or_eq_true (pyEndsWith u.qualname ".__init__")
          with h | h
        · exact absurd h h2.1
        · exact h
      have hb : decide (u.qualname = "__init__") = false := by
        simpa using h2.2
      simp [ha, hb]
  refine ⟨hmemf, filter_units_true, ?_, ?_⟩
  · intro parse result cfg u v hinc hu hv hne hkk
    obtain ⟨k, hk⟩ := runKey_isSome parse cfg.strategy u
    have hunits : _filter_units (extract_code_units parse result)
        cfg.include_init = extract_code_units parse result := by
      rw [hinc, filter_units_true]
    have := coCluster_of_eq_key (runStrategyName cfg.strategy)
      (runKey parse cfg.strategy) (extract_code_units parse result) u v hu hv
      hne k hk (by rw [← hkk]; exact hk)
    obtain ⟨c, hc, hm⟩ := this
    refine ⟨c, ?_, hm⟩
    rw [run_eq]
    simp only [Option.getD_some]
    rw [hunits]
    exact hc
  · intro parse result cfg hinc c hc i hi
    have hc2 : c ∈ (find_clusters (runStrategyName cfg.strategy)
        (prepare (runKey parse cfg.strategy)
          (_filter_units (extract_code_units parse result) false))).1 := by
      rw [← hinc]
      exact hc
    obtain ⟨kv, hkv, hcm, _⟩ := group_of_cluster (runStrategyName cfg.strategy)
      (prepare (runKey parse cfg.strategy)
        (_filter_units (extract_code_units parse result) false)) 0 c hc2
    have hall := prepare_forall
      (P := fun j => ∃ u ∈ _filter_units (extract_code_units parse result) false,
        u.id = j ∧
          ¬(pyEndsWith u.qualname ".__init__" = true ∨
            u.qualname = "__init__"))
      (runKey parse cfg.strategy)
      (_filter_units (extract_code_units parse result) false)
      (fun u hu => ⟨u, hu, rfl, ((hmemf _ u).mp hu).2⟩)
    have hres := hall kv hkv i (by rw [← hcm]; exact hi)
    obtain ⟨u, hu, hid, hq⟩ := hres
    refine ⟨u, ?_, hid, hq⟩
    have hrw : (run parse result (some cfg)).units
        = _filter_units (extract_code_units parse result) false := by
      rw [run_eq]
      simp only [Option.getD_some]
      rw [hinc]
    rw [hrw]
    exact hu

/-- C5 witness: two structurally identical constructors in different
classes, run with `include_init = true`: they share a cluster. -/
theorem claim_C5_witness :
    ∃ c ∈ (run
      (fun _ => some
        [PyNode.classDef "A" 1 2 [PyNode.functionDef false "__init__" 1 1 [] [] []],
         PyNode.classDef "B" 3 4 [PyNode.functionDef false "__init__" 1 1 [] [] []]])
      ⟨[("f.py", ⟨⟨"f.py", "f.py", "f.py"⟩, some "init"⟩)]⟩
      (some { include_init := true })).clusters,
      (0 : Nat) ∈ c.member_ids ∧ (1 : Nat) ∈ c.member_ids :=
  (claim_C5).2.2.1
    (fun _ => some
      [PyNode.classDef "A" 1 2 [PyNode.functionDef false "__init__" 1 1 [] [] []],
       PyNode.classDef "B" 3 4 [PyNode.functionDef false "__init__" 1 1 [] [] []]])
    ⟨[("f.py", ⟨⟨"f.py", "f.py", "f.py"⟩, some "init"⟩)]⟩
    { include_init := true }
    ⟨0, "f.py", "f.py", "A.__init__", (1, 1), "init"⟩
    ⟨1, "f.py", "f.py", "B.__init__", (1, 1), "init"⟩
    rfl (by decide) (by decide) (by decide) rfl

/-- C6: `canonicalize_function_info` is a total function of its input; on
any input whose (dedented) source the parser rejects — parse failure being
the modelled fallibility of the `try` block — it returns the dedented and
stripped original text as the canonical string together with node count
`0`, so a failing unit merely gets a textual key and no exception escapes
to the enclosing batch. -/
theorem claim_C6 (parse : String → Option (List PyNode)) (source : String)
    (h : parse (dedent source) = none) :
    canonicalize_function_info parse source =
      (pyStripString (dedent source), 0) := by
  rw [canonicalize_function_info]
  simp only [h]

/-- C6 witness: an unparsable snippet falls back to its dedented,
stripped text with node count `0`. -/
theorem claim_C6_witness :
    (fun _ => (none : Option (List PyNode))) (dedent "def f(:  ") = none ∧
    canonicalize_function_info (fun _ => none) "def f(:  " =
      (pyStripString (dedent "def f(:  "), 0) ∧
    pyStripString (dedent "def f(:  ") = "def f(:" :=
  ⟨rfl, claim_C6 (fun _ => none) "def f(:  " rfl, by decide⟩

/-- C7: a qualifying file (a `.py` filename with non-empty content) whose
source fails to parse contributes zero units: extraction over the file
map equals extraction with that file absent, ids included, and no
exception escapes (`extract_code_units` is a total function). -/
theorem claim_C7 (parse : String → Option (List PyNode))
    (pre post : List (String × FileAnalysis)) (ap : String)
    (fa : FileAnalysis)
    (h1 : pyEndsWith (pyLower fa.file_info.filename) ".py" = true)
    (h2 : fa.content.getD "" ≠ "")
    (h3 : parse (fa.content.getD "") = none) :
    extract_code_units parse ⟨pre ++ (ap, fa) :: post⟩ =
      extract_code_units parse ⟨pre ++ post⟩ := by
  rw [extract_code_units, extract_code_units]
  show ((pre ++ (ap, fa) :: post).foldl (extractStep parse) ([], 0)).1
    = ((pre ++ post).foldl (extractStep parse) ([], 0)).1
  rw [List.foldl_append, List.foldl_cons]
  have hstep : extractStep parse (pre.foldl (extractStep parse) ([], 0))
      (ap, fa) = pre.foldl (extractStep parse) ([], 0) := by
    simp [extractStep, h1, h2, h3]
  rw [hstep, ← List.foldl_append]

/-- C7 witness: one healthy file before a failing file; removing the
failing file leaves the extraction unchanged. -/
theorem claim_C7_witness :
    pyEndsWith (pyLower (⟨⟨"b.py", "b.py", "b.py"⟩,
      some "bad("⟩ : FileAnalysis).file_info.filename) ".py" = true ∧
    ((⟨⟨"b.py", "b.py", "b.py"⟩, some "bad("⟩ :
      FileAnalysis).content.getD "" ≠ "") ∧
    extract_code_units
      (fun src => if src = "ok" then some [] else none)
      ⟨[("a.py", ⟨⟨"a.py", "a.py", "a.py"⟩, some "ok"⟩),
        ("b.py", ⟨⟨"b.py", "b.py", "b.py"⟩, some "bad("⟩)]⟩ =
      extract_code_units
        (fun src => if src = "ok" then some [] else none)
        ⟨[("a.py", ⟨⟨"a.py", "a.py", "a.py"⟩, some "ok"⟩)]⟩ := by
  refine ⟨by decide, by decide, ?_⟩
  exact claim_C7 (fun src => if src = "ok" then some [] else none)
    [("a.py", ⟨⟨"a.py", "a.py", "a.py"⟩, some "ok"⟩)] []
    "b.py" ⟨⟨"b.py", "b.py", "b.py"⟩, some "bad("⟩
    (by decide) (by decide) (by rfl)

/-- C8: `run` is deterministic — equal analysis inputs and configs give
equal results (same units and ids, same clusters, same matches in the
same order).  In this embedding every invocation builds its key map from
the fresh instance's empty map (`run_eq`) and shares no state with other
invocations, so the result is a pure function of the arguments. -/
theorem claim_C8 (parse : String → Option (List PyNode))
    (r1 r2 : AnalysisResult) (c1 c2 : Option SimilarityConfig)
    (hr : r1 = r2) (hc : c1 = c2) : run parse r1 c1 = run parse r2 c2 := by
  subst hr
  subst hc
  rfl

/-- C8 witness: two invocations on a concrete input coincide. -/
theorem claim_C8_witness :
    run (fun _ => some [PyNode.functionDef false "f" 1 1 [] [] []])
      ⟨[("f.py", ⟨⟨"f.py", "f.py", "f.py"⟩, some "def f(): pass"⟩)]⟩ none =
    run (fun _ => some [PyNode.functionDef false "f" 1 1 [] [] []])
      ⟨[("f.py", ⟨⟨"f.py", "f.py", "f.py"⟩, some "def f(): pass"⟩)]⟩ none :=
  claim_C8 (fun _ => some [PyNode.functionDef false "f" 1 1 [] [] []])
    ⟨[("f.py", ⟨⟨"f.py", "f.py", "f.py"⟩, some "def f(): pass"⟩)]⟩
    ⟨[("f.py", ⟨⟨"f.py", "f.py", "f.py"⟩, some "def f(): pass"⟩)]⟩
    none none rfl rfl

/-- C9: `normalize_text` is idempotent, and its output has no leading or
trailing whitespace and no two adjacent whitespace characters — every
whitespace run in the output is one single plain space. -/
theorem claim_C9 (s : String) :
    normalize_text (normalize_text s) = normalize_text s ∧
    noLeadingWs (normalize_text s) = true ∧
    noTrailingWs (normalize_text s) = true ∧
    noAdjacentWs (normalize_text s) = true ∧
    wsCharsAreSpace (normalize_text s).data = true := by
  obtain ⟨h1, h2, h3, h4⟩ := normalize_out_clean s.data
  refine ⟨normalize_text_idem s, h1, h2, h3, ?_⟩
  rw [wsCharsAreSpace, List.all_eq_true]
  intro c hc
  by_cases hws : pyIsSpace c
  · simp [h4 c hc hws]
  · simp [hws]

/-- C10: referential integrity of the result envelope — every cluster
member id and both ids of every match name a unit of the post-filter
units list, and each match's two ids occur together in some cluster. -/
theorem claim_C10 (parse : String → Option (List PyNode))
    (result : AnalysisResult) (config : Option SimilarityConfig) :
    (∀ c ∈ (run parse result config).clusters, ∀ i ∈ c.member_ids,
      ∃ u ∈ (run parse result config).units, u.id = i) ∧
    (∀ mt ∈ (run parse result config).«matches»,
      (∃ u ∈ (run parse result config).units, u.id = mt.a_id) ∧
      (∃ u ∈ (run parse result config).units, u.id = mt.b_id) ∧
      ∃ c ∈ (run parse result config).clusters,
        mt.a_id ∈ c.member_ids ∧ mt.b_id ∈ c.member_ids) := by
  have h1 : ∀ c ∈ (run parse result config).clusters, ∀ i ∈ c.member_ids,
      ∃ u ∈ (run parse result config).units, u.id = i := by
    intro c hc i hi
    obtain ⟨kv, hkv, hcm, _⟩ := group_of_cluster
      (runStrategyName (config.getD {}).strategy)
      (prepare (runKey parse (config.getD {}).strategy)
        (_filter_units (extract_code_units parse result)
          (config.getD {}).include_init)) 0 c hc
    exact prepare_forall
      (P := fun j => ∃ u ∈ (run parse result config).units, u.id = j)
      (runKey parse (config.getD {}).strategy)
      (_filter_units (extract_code_units parse result)
        (config.getD {}).include_init)
      (fun u hu => ⟨u, hu, rfl⟩) kv hkv i (by rw [← hcm]; exact hi)
  refine ⟨h1, ?_⟩
  intro mt hm
  obtain ⟨c, hc, ha, hb⟩ := match_mem_cluster
    (runStrategyName (config.getD {}).strategy)
    (prepare (runKey parse (config.getD {}).strategy)
      (_filter_units (extract_code_units parse result)
        (config.getD {}).include_init)) 0 mt hm
  exact ⟨h1 c hc _ ha, h1 c hc _ hb, c, hc, ha, hb⟩

/-- C10 witness: on a run producing one cluster `[0, 1]`, the first
member id names a unit of the result. -/
theorem claim_C10_witness :
    ∃ u ∈ (run
      (fun _ => some [PyNode.functionDef false "f" 1 1 [] [] [],
        PyNode.functionDef false "g" 1 1 [] [] []])
      ⟨[("f.py", ⟨⟨"f.py", "f.py", "f.py"⟩, some "def f(): pass"⟩)]⟩
      none).units, u.id = 0 :=
  (claim_C10
    (fun _ => some [PyNode.functionDef false "f" 1 1 [] [] [],
      PyNode.functionDef false "g" 1 1 [] [] []])
    ⟨[("f.py", ⟨⟨"f.py", "f.py", "f.py"⟩, some "def f(): pass"⟩)]⟩
    none).1
    { id := 0, member_ids := [0, 1], strategy := "exact",
      score_min := 1, score_max := 1 }
    (by decide) 0 (by decide)

end Locus
